import Mathlib

/-!
Shallow embedding of the polynomial arithmetic core of the `miura` repository
(`src/miura/src/poly.rs` and `src/miura/src/vec_helper.rs`).

Coefficients are Rust `i32` values; they are modeled as `Int` (the spec treats
overflow as out of scope).  Rust's truncating remainder `%` is `Int.tmod`.
A Rust panic (index out of bounds, usize underflow, division by zero) is
modeled by `Option.none`; fallible operations returning
`Result<IntPoly, PolynomialError>` are modeled as
`Option (Except PolynomialError IntPoly)`, where the outer `Option` records
whether the computation panics and the inner `Except` is the returned value.
-/

namespace Miura

/-- `Modulus` from `poly.rs`: `Some(q)` selects the remainder class ring
`Z/qZ`, `None` selects the integers. -/
inductive Modulus
  | some (q : Int)
  | none
deriving DecidableEq

/-- `IntPoly` from `poly.rs`: a polynomial stored as its coefficient vector
(`coefficients[i]` is the coefficient of `X^i`) together with a modulus. -/
structure IntPoly where
  coefficients : List Int
  modulus : Modulus
deriving DecidableEq

/-- `PolynomialError` from `poly.rs`. -/
inductive PolynomialError
  | ModulusMismatchError (a b : Modulus)
deriving DecidableEq

/-- The loop of `remove_trailing_zeros` (`vec_helper.rs`), acting on the
*reversed* coefficient vector: the Rust loop repeatedly examines `vec[n-1]`
(the head of the reversed vector) and pops it.

Because `&&` binds tighter than `||` in Rust, the loop condition parses as
`(vec.len() > 0 && (modulus == None && vec[n-1] == 0)) || (vec[n-1] % x == 0)`:
the emptiness guard protects only the `None` branch.  With a `Some` modulus
the condition indexes `vec[n-1]` even when the vector is empty (`n = 0`), a
usize-underflow/out-of-bounds panic, modeled by `Option.none`.  Likewise
`vec[n-1] % 0` is a division-by-zero panic. -/
def removeTrailingZerosRev (m : Modulus) : List Int → Option (List Int)
  | [] =>
    match m with
    | Modulus.none => Option.some []
    | Modulus.some _ => Option.none
  | a :: rest =>
    match m with
    | Modulus.none =>
      if a = 0 then removeTrailingZerosRev Modulus.none rest
      else Option.some (a :: rest)
    | Modulus.some q =>
      if q = 0 then Option.none
      else if a.tmod q = 0 then removeTrailingZerosRev (Modulus.some q) rest
      else Option.some (a :: rest)

/-- `remove_trailing_zeros` from `vec_helper.rs`.  The function mutates its
argument in place in Rust; here the returned list is the final state of the
argument vector, and `Option.none` models a panic. -/
def removeTrailingZeros (vec : List Int) (modulus : Modulus) : Option (List Int) :=
  (removeTrailingZerosRev modulus vec.reverse).map List.reverse

/-- `shift_vector` from `vec_helper.rs`: prepend `amt` zeros. -/
def shiftVector (vec : List Int) (amt : Nat) : List Int :=
  List.replicate amt 0 ++ vec

/-- `scale_vector` from `vec_helper.rs`: multiply every entry by `amt`
(the Rust closure computes `amt * *x`). -/
def scaleVector (vec : List Int) (amt : Int) : List Int :=
  vec.map (fun x => amt * x)

/-- `IntPoly::new` from `poly.rs`: trim trailing zeros / multiples of the
modulus, then store the trimmed vector and the modulus. -/
def IntPoly.new (coeff : List Int) (md : Modulus) : Option IntPoly :=
  (removeTrailingZeros coeff md).map (fun c => IntPoly.mk c md)

/-- `IntPoly::coefficient` from `poly.rs`. -/
def IntPoly.coefficient (p : IntPoly) (exponent : Nat) : Int :=
  if p.coefficients.length = 0 then 0
  else if exponent > p.coefficients.length - 1 then 0
  else
    match p.modulus with
    | Modulus.some q => (p.coefficients.getD exponent 0).tmod q
    | Modulus.none => p.coefficients.getD exponent 0

/-- `IntPoly::deg` from `poly.rs`: `-1` for the empty coefficient vector,
`len - 1` otherwise. -/
def IntPoly.deg (p : IntPoly) : Int :=
  if p.coefficients.length = 0 then -1
  else ((p.coefficients.length - 1 : Nat) : Int)

/-- `IntPoly::scale` from `poly.rs`. -/
def IntPoly.scale (p : IntPoly) (scaleFactor : Int) : Option IntPoly :=
  IntPoly.new (scaleVector p.coefficients scaleFactor) p.modulus

/-- `IntPoly::additive_inverse` from `poly.rs`. -/
def IntPoly.additiveInverse (p : IntPoly) : Option IntPoly :=
  p.scale (-1)

/-- The characters of one rendered monomial `aX^i` in `IntPoly::to_string`. -/
def monomialChars (a : Int) (i : Nat) : List Char :=
  (toString a).data ++ ['X', '^'] ++ (toString i).data

/-- `IntPoly::to_string` from `poly.rs`: `"0"` for the empty coefficient
vector; otherwise, for each stored coefficient, append the monomial text when
the coefficient is non-zero (zero coefficients contribute no text) and then
always append the separator `" + "`; finally remove the last three
characters. -/
def IntPoly.toString (p : IntPoly) : String :=
  if p.coefficients.length = 0 then "0"
  else
    let s := (p.coefficients.enum.map (fun ia =>
      (if ia.2 ≠ 0 then monomialChars ia.2 ia.1 else []) ++ (" + ").data)).flatten
    String.mk (s.take (s.length - 3))

/-- `zero_polynomial` from `poly.rs`. -/
def zeroPolynomial (md : Modulus) : Option IntPoly :=
  IntPoly.new [] md

/-- `one_polynomial` from `poly.rs`. -/
def onePolynomial (md : Modulus) : Option IntPoly :=
  IntPoly.new [1] md

/-- `add_poly` from `poly.rs`. -/
def addPoly (poly1 poly2 : IntPoly) : Option (Except PolynomialError IntPoly) :=
  if poly1.modulus ≠ poly2.modulus then
    Option.some (Except.error (PolynomialError.ModulusMismatchError poly1.modulus poly2.modulus))
  else
    let resultLen := max poly1.coefficients.length poly2.coefficients.length
    let resultCoeffs := (List.range resultLen).map
      (fun i => poly1.coefficient i + poly2.coefficient i)
    (removeTrailingZeros resultCoeffs poly1.modulus).bind (fun trimmed =>
      (IntPoly.new trimmed poly1.modulus).map Except.ok)

/-- The fold inside `sum_of_polys`: add every element of the list to the
accumulator, propagating the first error (the `?` operator) and any panic. -/
def foldAddPolys (acc : IntPoly) : List IntPoly → Option (Except PolynomialError IntPoly)
  | [] => Option.some (Except.ok acc)
  | p :: rest =>
    (addPoly acc p).bind (fun r =>
      match r with
      | Except.ok r' => foldAddPolys r' rest
      | Except.error e => Option.some (Except.error e))

/-- `sum_of_polys` from `poly.rs`: the empty sum is the integer zero
polynomial; otherwise fold `add_poly` over the whole list, seeded with the
zero polynomial carrying the first element's modulus. -/
def sumOfPolys (polyVec : List IntPoly) : Option (Except PolynomialError IntPoly) :=
  match polyVec with
  | [] => (zeroPolynomial Modulus.none).map Except.ok
  | p0 :: _ => (zeroPolynomial p0.modulus).bind (fun z => foldAddPolys z polyVec)

/-- `subtract_poly` from `poly.rs`. -/
def subtractPoly (poly1 poly2 : IntPoly) : Option (Except PolynomialError IntPoly) :=
  (poly2.additiveInverse).bind (fun inv => addPoly poly1 inv)

/-- `multiply_poly` from `poly.rs`: for `i` in `0 .. deg+1` (that is, one
iteration per stored coefficient of `poly1`), build the term
`poly1.coefficient(i) * X^i * poly2` by shifting and scaling `poly2`'s
coefficient vector, then sum the terms with `sum_of_polys`. -/
def multiplyPoly (poly1 poly2 : IntPoly) : Option (Except PolynomialError IntPoly) :=
  if poly1.modulus ≠ poly2.modulus then
    Option.some (Except.error (PolynomialError.ModulusMismatchError poly1.modulus poly2.modulus))
  else
    ((List.range poly1.coefficients.length).mapM (fun i =>
      IntPoly.new (scaleVector (shiftVector poly2.coefficients i) (poly1.coefficient i))
        poly1.modulus)).bind sumOfPolys

/-- The fold inside `product_of_polys`. -/
def foldMultiplyPolys (acc : IntPoly) : List IntPoly → Option (Except PolynomialError IntPoly)
  | [] => Option.some (Except.ok acc)
  | p :: rest =>
    (multiplyPoly acc p).bind (fun r =>
      match r with
      | Except.ok r' => foldMultiplyPolys r' rest
      | Except.error e => Option.some (Except.error e))

/-- `product_of_polys` from `poly.rs`: the empty product is the integer one
polynomial; otherwise fold `multiply_poly` over the whole list, seeded with
the one polynomial carrying the first element's modulus. -/
def productOfPolys (polyVec : List IntPoly) : Option (Except PolynomialError IntPoly) :=
  match polyVec with
  | [] => (onePolynomial Modulus.none).map Except.ok
  | p0 :: _ => (onePolynomial p0.modulus).bind (fun o => foldMultiplyPolys o polyVec)

/-- `poly_power` from `poly.rs`: exponent `0` yields the one polynomial under
the argument's own modulus; otherwise the product of `exponent` copies. -/
def polyPower (poly : IntPoly) (exponent : Nat) : Option (Except PolynomialError IntPoly) :=
  if exponent = 0 then (onePolynomial poly.modulus).map Except.ok
  else productOfPolys (List.replicate exponent poly)

/-- A coefficient is acceptable as the last stored coefficient under the
given modulus: non-zero over the integers, not congruent to zero mod `q`
over `Z/qZ`. -/
def modOk : Modulus → Int → Prop
  | Modulus.none, a => a ≠ 0
  | Modulus.some q, a => a.tmod q ≠ 0

/-- The normalization invariant of `IntPoly`: the last stored coefficient,
if any, is non-zero under the polynomial's modulus. -/
def IntPoly.normalized (p : IntPoly) : Prop :=
  ∀ a, p.coefficients.getLast? = Option.some a → modOk p.modulus a

/-- The value computed by the trimming loop over the integers (no modulus),
on the reversed vector: drop leading zeros. -/
def trimNoneRev : List Int → List Int
  | [] => []
  | a :: rest => if a = 0 then trimNoneRev rest else a :: rest

/-- The value computed by `remove_trailing_zeros` over the integers:
drop trailing zeros. -/
def trimNone (v : List Int) : List Int :=
  (trimNoneRev v.reverse).reverse

/-- The coefficient of `X^i` read off a raw coefficient vector, with the
conceptually infinite trailing zeros made explicit. -/
def coeffAt (v : List Int) (i : Nat) : Int :=
  v.getD i 0

/-- Join a non-empty list of character chunks with a separator between
consecutive chunks (the usual intercalation). -/
def joinSep (sep : List Char) : List (List Char) → List Char
  | [] => []
  | [x] => x
  | x :: y :: rest => x ++ sep ++ joinSep sep (y :: rest)

/-- The rendering described by the specification sentence for `to_string`:
every stored term `a_iX^i`, from exponent 0 up to the degree, joined by
`" + "`, with zero coefficients rendered like any other
(`"a_0X^0 + a_1X^1 + ... + a_nX^n"`); `"0"` for the zero polynomial. -/
def specRenderedString (p : IntPoly) : String :=
  if p.coefficients.length = 0 then "0"
  else String.mk (joinSep (" + ").data
    (p.coefficients.enum.map (fun ia => monomialChars ia.2 ia.1)))

theorem rtzRev_none_eq (l : List Int) :
    removeTrailingZerosRev Modulus.none l = Option.some (trimNoneRev l) := by
  induction l with
  | nil => rfl
  | cons a rest ih =>
    simp only [removeTrailingZerosRev, trimNoneRev]
    split <;> simp [ih]

theorem trimNoneRev_decomp (l : List Int) :
    ∃ d, l = d ++ trimNoneRev l ∧ ∀ x ∈ d, x = 0 := by
  induction l with
  | nil => exact ⟨[], rfl, by simp⟩
  | cons a rest ih =>
    by_cases ha : a = 0
    · obtain ⟨d, hd, hz⟩ := ih
      refine ⟨a :: d, ?_, ?_⟩
      · simp [trimNoneRev, ha, ← hd]
      · intro x hx
        rcases List.mem_cons.mp hx with h | h
        · exact h.trans ha
        · exact hz x h
    · exact ⟨[], by simp [trimNoneRev, ha], by simp⟩

theorem trimNoneRev_head {l : List Int} {a : Int}
    (h : (trimNoneRev l).head? = Option.some a) : a ≠ 0 := by
  induction l with
  | nil => simp [trimNoneRev] at h
  | cons b rest ih =>
    simp only [trimNoneRev] at h
    split at h
    · exact ih h
    · next hb =>
      simp only [List.head?_cons, Option.some.injEq] at h
      exact h ▸ hb

theorem trimNoneRev_eq_self {l : List Int}
    (h : ∀ a, l.head? = Option.some a → a ≠ 0) : trimNoneRev l = l := by
  cases l with
  | nil => rfl
  | cons a rest =>
    have ha : a ≠ 0 := h a (by simp)
    simp [trimNoneRev, ha]

theorem removeTrailingZeros_none_eq (v : List Int) :
    removeTrailingZeros v Modulus.none = Option.some (trimNone v) := by
  simp [removeTrailingZeros, rtzRev_none_eq, trimNone]

theorem trimNone_decomp (v : List Int) :
    ∃ z, v = trimNone v ++ z ∧ ∀ x ∈ z, x = 0 := by
  obtain ⟨d, hd, hz⟩ := trimNoneRev_decomp v.reverse
  refine ⟨d.reverse, ?_, ?_⟩
  · have := congrArg List.reverse hd
    simpa [trimNone] using this
  · intro x hx
    exact hz x (List.mem_reverse.mp hx)

theorem trimNone_getLast {v : List Int} {a : Int}
    (h : (trimNone v).getLast? = Option.some a) : a ≠ 0 := by
  apply trimNoneRev_head (l := v.reverse)
  rwa [trimNone, List.getLast?_reverse] at h

theorem trimNone_eq_self {v : List Int}
    (h : ∀ a, v.getLast? = Option.some a → a ≠ 0) : trimNone v = v := by
  have : trimNoneRev v.reverse = v.reverse := by
    apply trimNoneRev_eq_self
    intro a ha
    exact h a (by rwa [List.head?_reverse] at ha)
  simp [trimNone, this]

theorem rtzRev_some_none_of_all {l : List Int} {q : Int}
    (h : ∀ x ∈ l, x.tmod q = 0) :
    removeTrailingZerosRev (Modulus.some q) l = Option.none := by
  induction l with
  | nil => rfl
  | cons a rest ih =>
    simp only [removeTrailingZerosRev]
    by_cases hq : q = 0
    · simp [hq]
    · have ha : a.tmod q = 0 := h a (by simp)
      simp only [hq, if_false, ha, if_true]
      exact ih (fun x hx => h x (List.mem_cons_of_mem _ hx))

theorem rtzRev_some_none_iff {l : List Int} {q : Int} (hq : q ≠ 0) :
    removeTrailingZerosRev (Modulus.some q) l = Option.none ↔ ∀ x ∈ l, x.tmod q = 0 := by
  constructor
  · intro h
    induction l with
    | nil => simp
    | cons a rest ih =>
      simp only [removeTrailingZerosRev, hq, if_false] at h
      split at h
      · next ha =>
        intro x hx
        rcases List.mem_cons.mp hx with hxa | hxr
        · exact hxa ▸ ha
        · exact ih h x hxr
      · simp at h
  · exact rtzRev_some_none_of_all

theorem rtzRev_head_ok {m : Modulus} {l w : List Int}
    (h : removeTrailingZerosRev m l = Option.some w) :
    ∀ a, w.head? = Option.some a → modOk m a := by
  induction l with
  | nil =>
    cases m with
    | none =>
      simp only [removeTrailingZerosRev, Option.some.injEq] at h
      subst h; simp
    | some q => simp [removeTrailingZerosRev] at h
  | cons b rest ih =>
    cases m with
    | none =>
      simp only [removeTrailingZerosRev] at h
      split at h
      · exact ih h
      · next hb =>
        simp only [Option.some.injEq] at h
        subst h
        intro a ha
        simp only [List.head?_cons, Option.some.injEq] at ha
        exact ha ▸ hb
    | some q =>
      simp only [removeTrailingZerosRev] at h
      split at h
      · simp at h
      · split at h
        · exact ih h
        · next hb =>
          simp only [Option.some.injEq] at h
          subst h
          intro a ha
          simp only [List.head?_cons, Option.some.injEq] at ha
          exact ha ▸ hb

theorem rtzRev_some_ne_nil {l w : List Int} {q : Int}
    (h : removeTrailingZerosRev (Modulus.some q) l = Option.some w) : w ≠ [] := by
  induction l with
  | nil => simp [removeTrailingZerosRev] at h
  | cons b rest ih =>
    simp only [removeTrailingZerosRev] at h
    split at h
    · simp at h
    · split at h
      · exact ih h
      · simp only [Option.some.injEq] at h
        subst h; simp

theorem removeTrailingZeros_getLast_ok {v w : List Int} {m : Modulus}
    (h : removeTrailingZeros v m = Option.some w) :
    ∀ a, w.getLast? = Option.some a → modOk m a := by
  simp only [removeTrailingZeros, Option.map_eq_some'] at h
  obtain ⟨w', hw', rfl⟩ := h
  intro a ha
  rw [List.getLast?_reverse] at ha
  exact rtzRev_head_ok hw' a ha

theorem removeTrailingZeros_some_none_iff {v : List Int} {q : Int} (hq : q ≠ 0) :
    removeTrailingZeros v (Modulus.some q) = Option.none ↔ ∀ x ∈ v, x.tmod q = 0 := by
  simp only [removeTrailingZeros, Option.map_eq_none']
  rw [rtzRev_some_none_iff hq]
  constructor
  · intro h x hx
    exact h x (List.mem_reverse.mpr hx)
  · intro h x hx
    exact h x (List.mem_reverse.mp hx)

theorem removeTrailingZeros_some_none_of_all {v : List Int} {q : Int}
    (h : ∀ x ∈ v, x.tmod q = 0) :
    removeTrailingZeros v (Modulus.some q) = Option.none := by
  simp only [removeTrailingZeros, Option.map_eq_none']
  exact rtzRev_some_none_of_all (fun x hx => h x (List.mem_reverse.mp hx))

theorem removeTrailingZeros_some_ne_nil {v w : List Int} {q : Int}
    (h : removeTrailingZeros v (Modulus.some q) = Option.some w) : w ≠ [] := by
  simp only [removeTrailingZeros, Option.map_eq_some'] at h
  obtain ⟨w', hw', rfl⟩ := h
  have := rtzRev_some_ne_nil hw'
  simpa using this

theorem removeTrailingZeros_nil_some (q : Int) :
    removeTrailingZeros [] (Modulus.some q) = Option.none := rfl

theorem coeffAt_eq_zero_of_le {v : List Int} {i : Nat} (h : v.length ≤ i) :
    coeffAt v i = 0 := by
  rw [coeffAt, List.getD_eq_getElem?_getD, List.getElem?_eq_none h]
  rfl

theorem coeffAt_eq_getElem {v : List Int} {i : Nat} (h : i < v.length) :
    coeffAt v i = v[i] := by
  simp [coeffAt, List.getD_eq_getElem?_getD, List.getElem?_eq_getElem h]

theorem coeffAt_append_zeros {w z : List Int} (hz : ∀ x ∈ z, x = 0) (i : Nat) :
    coeffAt (w ++ z) i = coeffAt w i := by
  simp only [coeffAt, List.getD_eq_getElem?_getD, List.getElem?_append]
  split
  · rfl
  · next h =>
    rw [List.getElem?_eq_none (l := w) (by omega)]
    cases h2 : z[i - w.length]? with
    | none => rfl
    | some x => simpa using hz x (List.getElem?_mem h2)

theorem coeffAt_map_range (n : Nat) (f : Nat → Int) (i : Nat) :
    coeffAt ((List.range n).map f) i = if i < n then f i else 0 := by
  simp only [coeffAt, List.getD_eq_getElem?_getD, List.getElem?_map]
  by_cases h : i < n
  · rw [List.getElem?_range h]
    simp [h]
  · rw [List.getElem?_eq_none (by simpa using Nat.not_lt.mp h)]
    simp [h]

theorem map_coeffAt_range (v : List Int) :
    (List.range v.length).map (fun i => coeffAt v i) = v := by
  apply List.ext_getElem
  · simp
  · intro i h1 h2
    simp only [List.getElem_map, List.getElem_range]
    exact coeffAt_eq_getElem h2

theorem coeffAt_trimNone (v : List Int) (i : Nat) :
    coeffAt (trimNone v) i = coeffAt v i := by
  obtain ⟨z, hv, hz⟩ := trimNone_decomp v
  conv_rhs => rw [hv]
  rw [coeffAt_append_zeros hz]

theorem coeffAt_shiftVector (v : List Int) (k i : Nat) :
    coeffAt (shiftVector v k) i = if i < k then 0 else coeffAt v (i - k) := by
  simp only [coeffAt, shiftVector, List.getD_eq_getElem?_getD, List.getElem?_append,
    List.length_replicate]
  by_cases h : i < k
  · simp [h, List.getElem?_replicate]
  · simp [h]

theorem coeffAt_scaleVector (v : List Int) (a : Int) (i : Nat) :
    coeffAt (scaleVector v a) i = a * coeffAt v i := by
  simp only [coeffAt, scaleVector, List.getD_eq_getElem?_getD, List.getElem?_map]
  cases h : v[i]? with
  | none => simp
  | some x => simp

/-- A coefficient vector with no trailing zero is determined by the
coefficient function it represents. -/
theorem eq_of_coeffAt_eq {v w : List Int}
    (hv : ∀ a, v.getLast? = Option.some a → a ≠ 0)
    (hw : ∀ a, w.getLast? = Option.some a → a ≠ 0)
    (h : ∀ i, coeffAt v i = coeffAt w i) : v = w := by
  have key : ∀ (v w : List Int), (∀ a, v.getLast? = Option.some a → a ≠ 0) →
      (∀ i, coeffAt v i = coeffAt w i) → v.length ≤ w.length := by
    intro v w hv h
    by_contra hlt
    push_neg at hlt
    have hne : v ≠ [] := by
      intro hnil
      rw [hnil] at hlt
      simp at hlt
    have hlast : v.getLast? = Option.some (v.getLast hne) := List.getLast?_eq_getLast v hne
    have hnz : v.getLast hne ≠ 0 := hv _ hlast
    have hidx : v.length - 1 < v.length := by
      have := List.length_pos.mpr hne
      omega
    have hgl : v.getLast hne = v[v.length - 1] := List.getLast_eq_getElem v hne
    have h1 : coeffAt v (v.length - 1) = v.getLast hne := by
      rw [coeffAt_eq_getElem hidx, hgl]
    have h2 : coeffAt w (v.length - 1) = 0 := by
      apply coeffAt_eq_zero_of_le
      omega
    rw [h (v.length - 1), h2] at h1
    exact hnz h1.symm
  have hlen : v.length = w.length :=
    Nat.le_antisymm (key v w hv h) (key w v hw (fun i => (h i).symm))
  apply List.ext_getElem hlen
  intro i h1 h2
  have := h i
  rwa [coeffAt_eq_getElem h1, coeffAt_eq_getElem h2] at this

theorem trimNone_idem (v : List Int) : trimNone (trimNone v) = trimNone v :=
  trimNone_eq_self (fun _ ha => trimNone_getLast ha)

theorem coefficient_none {p : IntPoly} (hp : p.modulus = Modulus.none) (i : Nat) :
    p.coefficient i = coeffAt p.coefficients i := by
  rw [IntPoly.coefficient, hp]
  by_cases h0 : p.coefficients.length = 0
  · rw [if_pos h0]
    exact (coeffAt_eq_zero_of_le (by omega)).symm
  · rw [if_neg h0]
    by_cases h1 : i > p.coefficients.length - 1
    · rw [if_pos h1]
      exact (coeffAt_eq_zero_of_le (by omega)).symm
    · rw [if_neg h1]
      rfl

theorem coefficient_some_in_range {p : IntPoly} {q : Int}
    (hp : p.modulus = Modulus.some q) {i : Nat} (hi : i < p.coefficients.length) :
    p.coefficient i = (coeffAt p.coefficients i).tmod q := by
  rw [IntPoly.coefficient, hp]
  rw [if_neg (by omega), if_neg (by omega)]
  rfl

theorem coefficient_some_out_of_range {p : IntPoly} {q : Int}
    (hp : p.modulus = Modulus.some q) {i : Nat} (hi : p.coefficients.length ≤ i) :
    p.coefficient i = 0 := by
  rw [IntPoly.coefficient, hp]
  by_cases h0 : p.coefficients.length = 0
  · rw [if_pos h0]
  · rw [if_neg h0, if_pos (by omega)]

theorem new_modulus {c : List Int} {md : Modulus} {p : IntPoly}
    (h : IntPoly.new c md = Option.some p) : p.modulus = md := by
  simp only [IntPoly.new, Option.map_eq_some'] at h
  obtain ⟨w, _, rfl⟩ := h
  rfl

theorem new_coefficients {c : List Int} {md : Modulus} {p : IntPoly}
    (h : IntPoly.new c md = Option.some p) :
    removeTrailingZeros c md = Option.some p.coefficients := by
  simp only [IntPoly.new, Option.map_eq_some'] at h
  obtain ⟨w, hw, rfl⟩ := h
  exact hw

theorem new_none_eq (c : List Int) :
    IntPoly.new c Modulus.none = Option.some (IntPoly.mk (trimNone c) Modulus.none) := by
  simp [IntPoly.new, removeTrailingZeros_none_eq]

theorem new_normalized {c : List Int} {md : Modulus} {p : IntPoly}
    (h : IntPoly.new c md = Option.some p) : p.normalized := by
  simp only [IntPoly.new, Option.map_eq_some'] at h
  obtain ⟨w, hw, rfl⟩ := h
  intro a ha
  exact removeTrailingZeros_getLast_ok hw a ha

theorem new_some_ne_nil {c : List Int} {q : Int} {p : IntPoly}
    (h : IntPoly.new c (Modulus.some q) = Option.some p) : p.coefficients ≠ [] := by
  simp only [IntPoly.new, Option.map_eq_some'] at h
  obtain ⟨w, hw, rfl⟩ := h
  exact removeTrailingZeros_some_ne_nil hw

theorem zeroPolynomial_none_eq :
    zeroPolynomial Modulus.none = Option.some (IntPoly.mk [] Modulus.none) := rfl

theorem zeroPolynomial_some_eq (q : Int) :
    zeroPolynomial (Modulus.some q) = Option.none := rfl

/-- Characterization of `add_poly` over the integers: it always succeeds and
returns the normalized polynomial whose coefficient function is the pointwise
sum of the operands' coefficient functions. -/
theorem addPoly_none_char {p q : IntPoly}
    (hp : p.modulus = Modulus.none) (hq : q.modulus = Modulus.none) :
    ∃ r : IntPoly, addPoly p q = Option.some (Except.ok r) ∧
      r.modulus = Modulus.none ∧ r.normalized ∧
      ∀ i, coeffAt r.coefficients i =
        coeffAt p.coefficients i + coeffAt q.coefficients i := by
  have hL : ∀ i, max p.coefficients.length q.coefficients.length ≤ i →
      coeffAt p.coefficients i + coeffAt q.coefficients i = 0 := by
    intro i hi
    rw [coeffAt_eq_zero_of_le (by omega), coeffAt_eq_zero_of_le (by omega)]
    rfl
  refine ⟨IntPoly.mk (trimNone ((List.range (max p.coefficients.length q.coefficients.length)).map
      (fun i => p.coefficient i + q.coefficient i))) Modulus.none, ?_, rfl, ?_, ?_⟩
  · rw [addPoly, if_neg (by rw [hp, hq]; simp)]
    rw [hp]
    simp [removeTrailingZeros_none_eq, new_none_eq, trimNone_idem]
  · intro a ha
    exact trimNone_getLast ha
  · intro i
    rw [coeffAt_trimNone, coeffAt_map_range]
    by_cases hi : i < max p.coefficients.length q.coefficients.length
    · rw [if_pos hi, coefficient_none hp, coefficient_none hq]
    · rw [if_neg hi]
      exact (hL i (by omega)).symm

/-- Characterization of the fold inside `sum_of_polys` over the integers. -/
theorem foldAddPolys_none_char (l : List IntPoly) (acc : IntPoly)
    (hacc : acc.modulus = Modulus.none) (haccN : acc.normalized)
    (hl : ∀ x ∈ l, x.modulus = Modulus.none) :
    ∃ r : IntPoly, foldAddPolys acc l = Option.some (Except.ok r) ∧
      r.modulus = Modulus.none ∧ r.normalized ∧
      ∀ i, coeffAt r.coefficients i = coeffAt acc.coefficients i +
        (l.map (fun x => coeffAt x.coefficients i)).sum := by
  induction l generalizing acc with
  | nil => exact ⟨acc, rfl, hacc, haccN, by simp⟩
  | cons x rest ih =>
    obtain ⟨r1, hr1, hm1, hn1, hc1⟩ := addPoly_none_char hacc (hl x (by simp))
    obtain ⟨r, hr, hm, hn, hc⟩ := ih r1 hm1 hn1 (fun y hy => hl y (List.mem_cons_of_mem _ hy))
    refine ⟨r, ?_, hm, hn, ?_⟩
    · rw [foldAddPolys, hr1]
      simpa using hr
    · intro i
      rw [hc i, hc1 i]
      simp [add_assoc]

/-- Characterization of `sum_of_polys` over the integers. -/
theorem sumOfPolys_none_char (l : List IntPoly)
    (hl : ∀ x ∈ l, x.modulus = Modulus.none) :
    ∃ r : IntPoly, sumOfPolys l = Option.some (Except.ok r) ∧
      r.modulus = Modulus.none ∧ r.normalized ∧
      ∀ i, coeffAt r.coefficients i = (l.map (fun x => coeffAt x.coefficients i)).sum := by
  cases l with
  | nil =>
    refine ⟨IntPoly.mk [] Modulus.none, rfl, rfl, ?_, by simp [coeffAt]⟩
    intro a ha
    simp at ha
  | cons x rest =>
    have hx : x.modulus = Modulus.none := hl x (by simp)
    obtain ⟨r, hr, hm, hn, hc⟩ := foldAddPolys_none_char (x :: rest)
      (IntPoly.mk [] Modulus.none) rfl (by intro a ha; simp at ha) hl
    refine ⟨r, ?_, hm, hn, ?_⟩
    · rw [sumOfPolys, hx]
      simpa [zeroPolynomial_none_eq] using hr
    · intro i
      rw [hc i]
      simp [coeffAt]

theorem mapM_option_of_forall {α β : Type} (l : List α) (f : α → Option β) (g : α → β)
    (h : ∀ x ∈ l, f x = Option.some (g x)) : l.mapM f = Option.some (l.map g) := by
  induction l with
  | nil => rfl
  | cons a rest ih =>
    rw [List.mapM_cons, h a (by simp), ih (fun x hx => h x (List.mem_cons_of_mem _ hx))]
    rfl

theorem sum_map_range_eq (n : Nat) (f : Nat → Int) :
    ((List.range n).map f).sum = ∑ i in Finset.range n, f i := rfl

/-- Extending the partial-product sum from the number of stored coefficients
of the left factor to the full convolution range. -/
theorem conv_sum_eq (pc qc : List Int) (j : Nat) :
    (∑ i in Finset.range pc.length,
      coeffAt pc i * (if j < i then 0 else coeffAt qc (j - i))) =
    ∑ i in Finset.range (j + 1), coeffAt pc i * coeffAt qc (j - i) := by
  have h1 : (∑ i in Finset.range pc.length,
      coeffAt pc i * (if j < i then 0 else coeffAt qc (j - i))) =
      ∑ i in Finset.range (max pc.length (j + 1)),
        coeffAt pc i * (if j < i then 0 else coeffAt qc (j - i)) := by
    apply Finset.sum_subset (Finset.range_subset.mpr (by omega))
    intro i _ hnotin
    rw [Finset.mem_range] at hnotin
    rw [coeffAt_eq_zero_of_le (by omega), zero_mul]
  have h2 : (∑ i in Finset.range (j + 1), coeffAt pc i * coeffAt qc (j - i)) =
      ∑ i in Finset.range (max pc.length (j + 1)),
        coeffAt pc i * (if j < i then 0 else coeffAt qc (j - i)) := by
    rw [Finset.sum_congr rfl (g := fun i =>
        coeffAt pc i * (if j < i then 0 else coeffAt qc (j - i))) (by
      intro i hi
      rw [Finset.mem_range] at hi
      have hji : ¬ j < i := by omega
      simp [hji])]
    apply Finset.sum_subset (Finset.range_subset.mpr (by omega))
    intro i _ hnotin
    rw [Finset.mem_range] at hnotin
    rw [if_pos (by omega), mul_zero]
  rw [h1, h2]

/-- The convolution is symmetric in the two coefficient vectors. -/
theorem conv_sum_comm (pc qc : List Int) (j : Nat) :
    (∑ i in Finset.range (j + 1), coeffAt pc i * coeffAt qc (j - i)) =
    ∑ i in Finset.range (j + 1), coeffAt qc i * coeffAt pc (j - i) := by
  rw [← Finset.sum_range_reflect (fun i => coeffAt qc i * coeffAt pc (j - i)) (j + 1)]
  apply Finset.sum_congr rfl
  intro i hi
  rw [Finset.mem_range] at hi
  have e1 : j + 1 - 1 - i = j - i := by omega
  have e2 : j - (j - i) = i := by omega
  rw [e1, e2, mul_comm]

/-- Characterization of `multiply_poly` over the integers: it always succeeds
and its result is the normalized polynomial whose coefficient function is the
convolution of the operands' coefficient functions. -/
theorem multiplyPoly_none_char {p q : IntPoly}
    (hp : p.modulus = Modulus.none) (hq : q.modulus = Modulus.none) :
    ∃ r : IntPoly, multiplyPoly p q = Option.some (Except.ok r) ∧
      r.modulus = Modulus.none ∧ r.normalized ∧
      ∀ j, coeffAt r.coefficients j =
        ∑ i in Finset.range (j + 1),
          coeffAt p.coefficients i * coeffAt q.coefficients (j - i) := by
  have hmap : (List.range p.coefficients.length).mapM (fun i =>
      IntPoly.new (scaleVector (shiftVector q.coefficients i) (p.coefficient i)) Modulus.none)
      = Option.some ((List.range p.coefficients.length).map (fun i =>
        IntPoly.mk (trimNone (scaleVector (shiftVector q.coefficients i) (p.coefficient i)))
          Modulus.none)) :=
    mapM_option_of_forall _ _ _ (fun i _ => new_none_eq _)
  obtain ⟨r, hr, hm, hn, hc⟩ := sumOfPolys_none_char
    ((List.range p.coefficients.length).map (fun i =>
      IntPoly.mk (trimNone (scaleVector (shiftVector q.coefficients i) (p.coefficient i)))
        Modulus.none))
    (by intro x hx; obtain ⟨i, _, rfl⟩ := List.mem_map.mp hx; rfl)
  refine ⟨r, ?_, hm, hn, ?_⟩
  · rw [multiplyPoly, if_neg (by rw [hp, hq]; simp), hp, hmap]
    simpa using hr
  · intro j
    rw [hc j, List.map_map]
    have hterm : ∀ i : Nat,
        ((fun x : IntPoly => coeffAt x.coefficients j) ∘ (fun i =>
          IntPoly.mk (trimNone (scaleVector (shiftVector q.coefficients i) (p.coefficient i)))
            Modulus.none)) i =
        coeffAt p.coefficients i * (if j < i then 0 else coeffAt q.coefficients (j - i)) := by
      intro i
      simp only [Function.comp_apply, coeffAt_trimNone, coeffAt_scaleVector,
        coeffAt_shiftVector]
      rw [coefficient_none hp]
    rw [List.map_congr_left (fun i _ => hterm i), sum_map_range_eq, conv_sum_eq]

/-- Any polynomial constructed with a `Some` modulus has a non-empty
coefficient vector, and multiplying two such polynomials always panics:
either a partial product panics, or `sum_of_polys` panics while seeding its
fold with `zero_polynomial(Some(m))`. -/
theorem multiplyPoly_some_eq_none {p q : IntPoly} {m : Int}
    (hp : p.modulus = Modulus.some m) (hq : q.modulus = Modulus.some m)
    (hpne : p.coefficients ≠ []) :
    multiplyPoly p q = Option.none := by
  rw [multiplyPoly, if_neg (by rw [hp, hq]; simp), hp]
  obtain ⟨k, hk⟩ : ∃ k, p.coefficients.length = k + 1 :=
    ⟨p.coefficients.length - 1, by have := List.length_pos.mpr hpne; omega⟩
  rw [hk, List.range_succ_eq_map, List.mapM_cons]
  cases hf0 : IntPoly.new (scaleVector (shiftVector q.coefficients 0) (p.coefficient 0))
      (Modulus.some m) with
  | none => rfl
  | some h0 =>
    cases hrest : (((List.range k).map Nat.succ).mapM (fun i =>
        IntPoly.new (scaleVector (shiftVector q.coefficients i) (p.coefficient i))
          (Modulus.some m))) with
    | none => simp [hrest]
    | some t =>
      have hm0 : h0.modulus = Modulus.some m := new_modulus hf0
      simp [hrest, sumOfPolys, hm0, zeroPolynomial_some_eq]

theorem trimNoneRev_eq_nil {l : List Int} (h : ∀ x ∈ l, x = 0) :
    trimNoneRev l = [] := by
  induction l with
  | nil => rfl
  | cons a rest ih =>
    rw [trimNoneRev, if_pos (h a (by simp))]
    exact ih (fun x hx => h x (List.mem_cons_of_mem _ hx))

theorem trimNone_eq_nil {v : List Int} (h : ∀ x ∈ v, x = 0) :
    trimNone v = [] := by
  rw [trimNone, trimNoneRev_eq_nil (fun x hx => h x (List.mem_reverse.mp hx))]
  rfl

theorem rtzRev_some_zero (l : List Int) :
    removeTrailingZerosRev (Modulus.some 0) l = Option.none := by
  cases l with
  | nil => rfl
  | cons a rest => rw [removeTrailingZerosRev, if_pos rfl]

theorem removeTrailingZeros_some_zero (v : List Int) :
    removeTrailingZeros v (Modulus.some 0) = Option.none := by
  rw [removeTrailingZeros, rtzRev_some_zero]
  rfl

theorem addPoly_ok_normalized {p q r : IntPoly}
    (h : addPoly p q = Option.some (Except.ok r)) : r.normalized := by
  rw [addPoly] at h
  split at h
  · simp at h
  · rw [Option.bind_eq_some] at h
    obtain ⟨t, _, hnew⟩ := h
    simp only [Option.map_eq_some'] at hnew
    obtain ⟨r', hr', heq⟩ := hnew
    exact (Except.ok.inj heq) ▸ new_normalized hr'

theorem addPoly_ok_modulus {p q r : IntPoly}
    (h : addPoly p q = Option.some (Except.ok r)) : r.modulus = p.modulus := by
  rw [addPoly] at h
  split at h
  · simp at h
  · rw [Option.bind_eq_some] at h
    obtain ⟨t, _, hnew⟩ := h
    simp only [Option.map_eq_some'] at hnew
    obtain ⟨r', hr', heq⟩ := hnew
    exact (Except.ok.inj heq) ▸ new_modulus hr'

theorem foldAddPolys_ok_normalized (l : List IntPoly) (acc r : IntPoly)
    (hacc : acc.normalized)
    (h : foldAddPolys acc l = Option.some (Except.ok r)) : r.normalized := by
  induction l generalizing acc with
  | nil =>
    simp only [foldAddPolys, Option.some.injEq] at h
    exact (Except.ok.inj h) ▸ hacc
  | cons x rest ih =>
    rw [foldAddPolys, Option.bind_eq_some] at h
    obtain ⟨res, hres, hcont⟩ := h
    cases res with
    | ok r1 => exact ih r1 (addPoly_ok_normalized hres) hcont
    | error e => simp at hcont

theorem sumOfPolys_ok_normalized {l : List IntPoly} {r : IntPoly}
    (h : sumOfPolys l = Option.some (Except.ok r)) : r.normalized := by
  cases l with
  | nil =>
    rw [sumOfPolys] at h
    simp only [zeroPolynomial_none_eq, Option.map_some', Option.some.injEq] at h
    have heq := Except.ok.inj h
    intro a ha
    rw [← heq] at ha
    simp at ha
  | cons p0 rest =>
    rw [sumOfPolys, Option.bind_eq_some] at h
    obtain ⟨z, hz, hfold⟩ := h
    exact foldAddPolys_ok_normalized _ z r (new_normalized hz) hfold

theorem multiplyPoly_ok_normalized {p q r : IntPoly}
    (h : multiplyPoly p q = Option.some (Except.ok r)) : r.normalized := by
  rw [multiplyPoly] at h
  split at h
  · simp at h
  · rw [Option.bind_eq_some] at h
    obtain ⟨l', _, hsum⟩ := h
    exact sumOfPolys_ok_normalized hsum

theorem foldMultiplyPolys_ok_normalized (l : List IntPoly) (acc r : IntPoly)
    (hacc : acc.normalized)
    (h : foldMultiplyPolys acc l = Option.some (Except.ok r)) : r.normalized := by
  induction l generalizing acc with
  | nil =>
    simp only [foldMultiplyPolys, Option.some.injEq] at h
    exact (Except.ok.inj h) ▸ hacc
  | cons x rest ih =>
    rw [foldMultiplyPolys, Option.bind_eq_some] at h
    obtain ⟨res, hres, hcont⟩ := h
    cases res with
    | ok r1 => exact ih r1 (multiplyPoly_ok_normalized hres) hcont
    | error e => simp at hcont

theorem productOfPolys_ok_normalized {l : List IntPoly} {r : IntPoly}
    (h : productOfPolys l = Option.some (Except.ok r)) : r.normalized := by
  cases l with
  | nil =>
    rw [productOfPolys] at h
    simp only [Option.map_eq_some'] at h
    obtain ⟨o, ho, heq⟩ := h
    exact (Except.ok.inj heq) ▸ new_normalized ho
  | cons p0 rest =>
    rw [productOfPolys, Option.bind_eq_some] at h
    obtain ⟨o, ho, hfold⟩ := h
    exact foldMultiplyPolys_ok_normalized _ o r (new_normalized ho) hfold

theorem polyPower_ok_normalized {p r : IntPoly} {e : Nat}
    (h : polyPower p e = Option.some (Except.ok r)) : r.normalized := by
  rw [polyPower] at h
  split at h
  · simp only [Option.map_eq_some'] at h
    obtain ⟨o, ho, heq⟩ := h
    exact (Except.ok.inj heq) ▸ new_normalized ho
  · exact productOfPolys_ok_normalized h

theorem scale_normalized {p p' : IntPoly} {f : Int}
    (h : p.scale f = Option.some p') : p'.normalized :=
  new_normalized h

theorem subtractPoly_ok_normalized {p q r : IntPoly}
    (h : subtractPoly p q = Option.some (Except.ok r)) : r.normalized := by
  rw [subtractPoly, Option.bind_eq_some] at h
  obtain ⟨inv, _, hadd⟩ := h
  exact addPoly_ok_normalized hadd

/-- Claim C7: for all polynomials p and q with the same modulus (polynomials
being the values produced by the normalizing constructor), multiply_poly(p, q)
and multiply_poly(q, p) coincide.  Over the integers both sides succeed with
the same normalized convolution; over a remainder class ring both sides panic
in the same way, so the two computations are again equal. -/
theorem multiply_poly_comm (c1 c2 : List Int) (m : Modulus) (p q : IntPoly)
    (hp : IntPoly.new c1 m = Option.some p) (hq : IntPoly.new c2 m = Option.some q) :
    multiplyPoly p q = multiplyPoly q p := by
  cases m with
  | none =>
    have hpm := new_modulus hp
    have hqm := new_modulus hq
    obtain ⟨r1, hr1, hm1, hn1, hc1⟩ := multiplyPoly_none_char hpm hqm
    obtain ⟨r2, hr2, hm2, hn2, hc2⟩ := multiplyPoly_none_char hqm hpm
    have hcoe : r1.coefficients = r2.coefficients := by
      apply eq_of_coeffAt_eq
      · intro a ha
        have := hn1 a ha
        rwa [hm1] at this
      · intro a ha
        have := hn2 a ha
        rwa [hm2] at this
      · intro j
        rw [hc1 j, hc2 j, conv_sum_comm]
    have hmod : r1.modulus = r2.modulus := hm1.trans hm2.symm
    have : r1 = r2 := by
      cases r1
      cases r2
      simp only [IntPoly.mk.injEq]
      exact ⟨hcoe, hmod⟩
    rw [hr1, hr2, this]
  | some mv =>
    rw [multiplyPoly_some_eq_none (new_modulus hp) (new_modulus hq) (new_some_ne_nil hp),
      multiplyPoly_some_eq_none (new_modulus hq) (new_modulus hp) (new_some_ne_nil hq)]

theorem multiply_poly_comm_witness :
    multiplyPoly (IntPoly.mk [1, 2, 1] Modulus.none) (IntPoly.mk [0, 4, 0, 1] Modulus.none) =
    multiplyPoly (IntPoly.mk [0, 4, 0, 1] Modulus.none) (IntPoly.mk [1, 2, 1] Modulus.none) :=
  multiply_poly_comm [1, 2, 1] [0, 4, 0, 1] Modulus.none
    (IntPoly.mk [1, 2, 1] Modulus.none) (IntPoly.mk [0, 4, 0, 1] Modulus.none) rfl rfl

theorem addPoly_mismatch {p q : IntPoly} (h : p.modulus ≠ q.modulus) :
    addPoly p q = Option.some (Except.error
      (PolynomialError.ModulusMismatchError p.modulus q.modulus)) := by
  rw [addPoly, if_pos h]

theorem multiplyPoly_mismatch {p q : IntPoly} (h : p.modulus ≠ q.modulus) :
    multiplyPoly p q = Option.some (Except.error
      (PolynomialError.ModulusMismatchError p.modulus q.modulus)) := by
  rw [multiplyPoly, if_pos h]

theorem addPoly_match_no_error {p q : IntPoly} (h : p.modulus = q.modulus)
    (e : PolynomialError) : addPoly p q ≠ Option.some (Except.error e) := by
  rw [addPoly, if_neg (by simp [h])]
  intro hcontra
  rw [Option.bind_eq_some] at hcontra
  obtain ⟨t, _, hmap⟩ := hcontra
  simp only [Option.map_eq_some'] at hmap
  obtain ⟨r', _, heq⟩ := hmap
  exact Except.noConfusion heq

theorem mapM_new_moduli {l : List Nat} {f : Nat → Option IntPoly} {md : Modulus}
    {out : List IntPoly}
    (hf : ∀ i y, f i = Option.some y → y.modulus = md)
    (h : l.mapM f = Option.some out) : ∀ x ∈ out, x.modulus = md := by
  induction l generalizing out with
  | nil =>
    simp only [List.mapM_nil] at h
    have : out = [] := by
      cases h
      rfl
    subst this
    intro x hx
    simp at hx
  | cons a rest ih =>
    rw [List.mapM_cons] at h
    cases hfa : f a with
    | none => rw [hfa] at h; simp at h
    | some b =>
      rw [hfa] at h
      cases hrest : rest.mapM f with
      | none => rw [hrest] at h; simp at h
      | some bs =>
        rw [hrest] at h
        simp only [Option.bind_eq_bind, Option.some_bind, Option.pure_def,
          Option.some.injEq] at h
        subst h
        intro x hx
        rcases List.mem_cons.mp hx with hb | hbs
        · exact hb ▸ hf a b hfa
        · exact ih hrest x hbs

theorem foldAddPolys_no_error (l : List IntPoly) (acc : IntPoly) (m : Modulus)
    (hacc : acc.modulus = m) (hl : ∀ x ∈ l, x.modulus = m) (e : PolynomialError) :
    foldAddPolys acc l ≠ Option.some (Except.error e) := by
  induction l generalizing acc with
  | nil => simp [foldAddPolys]
  | cons x rest ih =>
    rw [foldAddPolys]
    intro h
    rw [Option.bind_eq_some] at h
    obtain ⟨res, hres, hcont⟩ := h
    cases res with
    | ok r1 =>
      exact ih r1 ((addPoly_ok_modulus hres).trans hacc)
        (fun y hy => hl y (List.mem_cons_of_mem _ hy)) hcont
    | error e2 =>
      exact addPoly_match_no_error (hacc.trans (hl x (by simp)).symm) e2 hres

theorem sumOfPolys_no_error (l : List IntPoly) (m : Modulus)
    (hl : ∀ x ∈ l, x.modulus = m) (e : PolynomialError) :
    sumOfPolys l ≠ Option.some (Except.error e) := by
  cases l with
  | nil => simp [sumOfPolys, zeroPolynomial_none_eq]
  | cons p0 rest =>
    rw [sumOfPolys]
    intro h
    rw [Option.bind_eq_some] at h
    obtain ⟨z, hz, hfold⟩ := h
    exact foldAddPolys_no_error (p0 :: rest) z m
      ((new_modulus hz).trans (hl p0 (by simp))) hl e hfold

theorem multiplyPoly_match_no_error {p q : IntPoly} (h : p.modulus = q.modulus)
    (e : PolynomialError) : multiplyPoly p q ≠ Option.some (Except.error e) := by
  rw [multiplyPoly, if_neg (by simp [h])]
  intro hcontra
  rw [Option.bind_eq_some] at hcontra
  obtain ⟨l', hmapm, hsum⟩ := hcontra
  exact sumOfPolys_no_error l' p.modulus
    (mapM_new_moduli (fun i y hy => new_modulus hy) hmapm) e hsum

/-- Claim C1: over the integers the trimming helper always terminates
normally, but with a modulus `Some q` it panics (indexes the vector after it
has become empty) exactly when every entry of the vector is a multiple of
`q` — in particular on the empty vector, so the claim that no core operation
panics is contradicted by the code. -/
theorem remove_trailing_zeros_behavior (v : List Int) (q : Int) (hq : q ≠ 0) :
    (∃ w, removeTrailingZeros v Modulus.none = Option.some w) ∧
    (removeTrailingZeros v (Modulus.some q) = Option.none ↔ ∀ x ∈ v, x.tmod q = 0) :=
  ⟨⟨trimNone v, removeTrailingZeros_none_eq v⟩, removeTrailingZeros_some_none_iff hq⟩

theorem remove_trailing_zeros_behavior_witness :
    removeTrailingZeros [5] (Modulus.some 5) = Option.none :=
  (remove_trailing_zeros_behavior [5] 5 (by decide)).2.mpr (by decide)

/-- Claim C2: over the integers the zero polynomial is a right additive
identity for every constructed polynomial, but over any remainder class ring
`zero_polynomial(Some(q))` itself panics, so
`add_poly(p, zero_polynomial(p.modulus))` cannot return `Ok(p)` for a
modular polynomial. -/
theorem add_zero_polynomial_identity :
    (zeroPolynomial Modulus.none = Option.some (IntPoly.mk [] Modulus.none)) ∧
    (∀ (c : List Int) (p : IntPoly), IntPoly.new c Modulus.none = Option.some p →
      addPoly p (IntPoly.mk [] Modulus.none) = Option.some (Except.ok p)) ∧
    (∀ q : Int, zeroPolynomial (Modulus.some q) = Option.none) := by
  refine ⟨rfl, ?_, fun q => rfl⟩
  intro c p hp
  have hpm : p.modulus = Modulus.none := new_modulus hp
  have hpn : p.normalized := new_normalized hp
  obtain ⟨r, hr, hm, hn, hc⟩ := addPoly_none_char hpm
    (show (IntPoly.mk [] Modulus.none).modulus = Modulus.none from rfl)
  have hcoe : r.coefficients = p.coefficients := by
    apply eq_of_coeffAt_eq
    · intro a ha
      have := hn a ha
      rwa [hm] at this
    · intro a ha
      have := hpn a ha
      rwa [hpm] at this
    · intro i
      rw [hc i]
      simp [coeffAt]
  have hrp : r = p := by
    cases r
    cases p
    simp only [IntPoly.mk.injEq]
    exact ⟨hcoe, hm.trans hpm.symm⟩
  rw [hr, hrp]

theorem add_zero_polynomial_identity_witness :
    addPoly (IntPoly.mk [1] Modulus.none) (IntPoly.mk [] Modulus.none) =
      Option.some (Except.ok (IntPoly.mk [1] Modulus.none)) :=
  add_zero_polynomial_identity.2.1 [1] (IntPoly.mk [1] Modulus.none) rfl

/-- Claim C3: scaling by 0 yields the zero polynomial over the integers, but
over any remainder class ring `scale(0)` panics inside the trimming helper
(the scaled vector consists entirely of multiples of the modulus), so the
"regardless of modulus" part of the claim is contradicted by the code. -/
theorem scale_zero_result :
    (∀ p : IntPoly, p.modulus = Modulus.none →
      p.scale 0 = Option.some (IntPoly.mk [] Modulus.none)) ∧
    (∀ (p : IntPoly) (q : Int), p.modulus = Modulus.some q → p.scale 0 = Option.none) := by
  have hz : ∀ (c : List Int), ∀ x ∈ scaleVector c 0, x = 0 := by
    intro c x hx
    simp only [scaleVector, List.mem_map] at hx
    obtain ⟨y, _, rfl⟩ := hx
    exact zero_mul y
  constructor
  · intro p hpm
    rw [IntPoly.scale, hpm, new_none_eq, trimNone_eq_nil (hz p.coefficients)]
  · intro p q hpm
    rw [IntPoly.scale, hpm, IntPoly.new,
      removeTrailingZeros_some_none_of_all (by
        intro x hx
        rw [hz p.coefficients x hx]
        exact Int.zero_tmod q)]
    rfl

theorem scale_zero_result_witness :
    (IntPoly.mk [1, 1, 1] Modulus.none).scale 0 = Option.some (IntPoly.mk [] Modulus.none) ∧
    (IntPoly.mk [1] (Modulus.some 5)).scale 0 = Option.none :=
  ⟨scale_zero_result.1 (IntPoly.mk [1, 1, 1] Modulus.none) rfl,
   scale_zero_result.2 (IntPoly.mk [1] (Modulus.some 5)) 5 rfl⟩

/-- Claim C4: every polynomial value returned (without panicking, and not as
an error) by the constructor or by any arithmetic operation satisfies the
normalization invariant: a non-empty coefficient vector ends in a
coefficient that is non-zero under the polynomial's modulus. -/
theorem normalization_invariant :
    (∀ (c : List Int) (md : Modulus) (p : IntPoly),
        IntPoly.new c md = Option.some p → p.normalized) ∧
    (∀ (p p' : IntPoly) (f : Int), p.scale f = Option.some p' → p'.normalized) ∧
    (∀ p p' : IntPoly, p.additiveInverse = Option.some p' → p'.normalized) ∧
    (∀ p q r : IntPoly, addPoly p q = Option.some (Except.ok r) → r.normalized) ∧
    (∀ p q r : IntPoly, subtractPoly p q = Option.some (Except.ok r) → r.normalized) ∧
    (∀ (l : List IntPoly) (r : IntPoly),
        sumOfPolys l = Option.some (Except.ok r) → r.normalized) ∧
    (∀ p q r : IntPoly, multiplyPoly p q = Option.some (Except.ok r) → r.normalized) ∧
    (∀ (l : List IntPoly) (r : IntPoly),
        productOfPolys l = Option.some (Except.ok r) → r.normalized) ∧
    (∀ (p r : IntPoly) (e : Nat), polyPower p e = Option.some (Except.ok r) → r.normalized) :=
  ⟨fun _ _ _ h => new_normalized h,
   fun _ _ _ h => scale_normalized h,
   fun _ _ h => scale_normalized h,
   fun _ _ _ h => addPoly_ok_normalized h,
   fun _ _ _ h => subtractPoly_ok_normalized h,
   fun _ _ h => sumOfPolys_ok_normalized h,
   fun _ _ _ h => multiplyPoly_ok_normalized h,
   fun _ _ h => productOfPolys_ok_normalized h,
   fun _ _ _ h => polyPower_ok_normalized h⟩

theorem normalization_invariant_witness :
    (IntPoly.mk [2, 2, 2] Modulus.none).normalized :=
  normalization_invariant.2.2.2.1 (IntPoly.mk [1, 1, 1, 426] Modulus.none)
    (IntPoly.mk [1, 1, 1, -426] Modulus.none) (IntPoly.mk [2, 2, 2] Modulus.none) (by rfl)

/-- Claim C6: `coefficient` returns 0 for the zero polynomial and for
exponents beyond the stored degree; inside the stored range it returns the
stored value over the integers, and the stored value reduced by the
truncating remainder `% q` (which may be negative) over `Z/qZ`.  No
polynomial with modulus `Some(0)` can ever be constructed, so the reduction
is always meaningful. -/
theorem coefficient_spec :
    (∀ (p : IntPoly) (e : Nat), p.coefficients = [] → p.coefficient e = 0) ∧
    (∀ (p : IntPoly) (e : Nat), (e : Int) > p.deg → p.coefficient e = 0) ∧
    (∀ (p : IntPoly) (e : Nat), (e : Int) ≤ p.deg → p.modulus = Modulus.none →
      p.coefficient e = p.coefficients.getD e 0) ∧
    (∀ (p : IntPoly) (e : Nat) (q : Int), (e : Int) ≤ p.deg → p.modulus = Modulus.some q →
      p.coefficient e = (p.coefficients.getD e 0).tmod q) ∧
    (∀ (c : List Int) (p : IntPoly), IntPoly.new c (Modulus.some 0) ≠ Option.some p) := by
  refine ⟨?_, ?_, ?_, ?_, ?_⟩
  · intro p e h
    rw [IntPoly.coefficient, if_pos (by simp [h])]
  · intro p e h
    by_cases h0 : p.coefficients.length = 0
    · rw [IntPoly.coefficient, if_pos h0]
    · rw [IntPoly.deg, if_neg h0] at h
      rw [IntPoly.coefficient, if_neg h0, if_pos (by omega)]
  · intro p e h hm
    have h0 : p.coefficients.length ≠ 0 := by
      intro hc
      rw [IntPoly.deg, if_pos hc] at h
      omega
    rw [IntPoly.deg, if_neg h0] at h
    rw [IntPoly.coefficient, if_neg h0, if_neg (by omega), hm]
  · intro p e q h hm
    have h0 : p.coefficients.length ≠ 0 := by
      intro hc
      rw [IntPoly.deg, if_pos hc] at h
      omega
    rw [IntPoly.deg, if_neg h0] at h
    rw [IntPoly.coefficient, if_neg h0, if_neg (by omega), hm]
  · intro c p h
    rw [IntPoly.new, removeTrailingZeros_some_zero] at h
    simp at h

theorem coefficient_spec_witness :
    (IntPoly.mk [-7] (Modulus.some 5)).coefficient 0 = -2 := by
  have h := coefficient_spec.2.2.2.1 (IntPoly.mk [-7] (Modulus.some 5)) 0 5
    (by decide) rfl
  exact h.trans (by decide)

/-- Claim C8: multiplying the zero polynomial (degree -1) by any polynomial
of the same modulus runs an empty partial-product loop and returns the value
of `sum_of_polys` on the empty list, namely `Ok` of the zero polynomial. -/
theorem multiply_zero_polynomial (p q : IntPoly) (h : p.deg = -1)
    (hm : p.modulus = q.modulus) :
    multiplyPoly p q = sumOfPolys [] ∧
    sumOfPolys ([] : List IntPoly) =
      Option.some (Except.ok (IntPoly.mk [] Modulus.none)) := by
  constructor
  · have hlen : p.coefficients.length = 0 := by
      by_contra hc
      rw [IntPoly.deg, if_neg hc] at h
      omega
    rw [multiplyPoly, if_neg (by simp [hm]), hlen]
    rfl
  · rfl

theorem multiply_zero_polynomial_witness :
    multiplyPoly (IntPoly.mk [] Modulus.none) (IntPoly.mk [1, 2] Modulus.none) =
      sumOfPolys [] ∧
    sumOfPolys ([] : List IntPoly) =
      Option.some (Except.ok (IntPoly.mk [] Modulus.none)) :=
  multiply_zero_polynomial (IntPoly.mk [] Modulus.none) (IntPoly.mk [1, 2] Modulus.none)
    (by decide) rfl

/-- Claim C10: the constructor trims the caller's vector in place; the final
state of the argument vector (the value `remove_trailing_zeros` leaves
behind) is exactly the coefficient sequence stored in the returned
polynomial, and the stored modulus is the one passed in. -/
theorem new_mutates_argument (c : List Int) (md : Modulus) (p : IntPoly)
    (h : IntPoly.new c md = Option.some p) :
    removeTrailingZeros c md = Option.some p.coefficients ∧ p.modulus = md :=
  ⟨new_coefficients h, new_modulus h⟩

theorem new_mutates_argument_witness :
    removeTrailingZeros [1, 0] Modulus.none =
      Option.some (IntPoly.mk [1] Modulus.none).coefficients ∧
    (IntPoly.mk [1] Modulus.none).modulus = Modulus.none :=
  new_mutates_argument [1, 0] Modulus.none (IntPoly.mk [1] Modulus.none) rfl

/-- Claim C5: `add_poly` and `multiply_poly` return the mismatch error,
carrying both operand moduli, exactly when the moduli differ, and in
particular on a `None` vs `Some(426)` pair; but the operations are not total
otherwise, and folds do not always halt at the first mismatch: a fold whose
first element is modular panics while seeding its accumulator with
`zero_polynomial(Some(q))`, before any mismatch is examined. -/
theorem modulus_mismatch_error_spec :
    (∀ p q : IntPoly, p.modulus ≠ q.modulus →
      addPoly p q = Option.some (Except.error
        (PolynomialError.ModulusMismatchError p.modulus q.modulus)) ∧
      multiplyPoly p q = Option.some (Except.error
        (PolynomialError.ModulusMismatchError p.modulus q.modulus))) ∧
    (∀ (p q : IntPoly) (e : PolynomialError), p.modulus = q.modulus →
      addPoly p q ≠ Option.some (Except.error e) ∧
      multiplyPoly p q ≠ Option.some (Except.error e)) ∧
    (addPoly (IntPoly.mk [1, 1, 1, 1] Modulus.none)
        (IntPoly.mk [425, 425, 425, 425] (Modulus.some 426)) =
      Option.some (Except.error
        (PolynomialError.ModulusMismatchError Modulus.none (Modulus.some 426)))) ∧
    (sumOfPolys [IntPoly.mk [1] (Modulus.some 5), IntPoly.mk [1] Modulus.none] =
      Option.none) :=
  ⟨fun _ _ h => ⟨addPoly_mismatch h, multiplyPoly_mismatch h⟩,
   fun _ _ e h => ⟨addPoly_match_no_error h e, multiplyPoly_match_no_error h e⟩,
   by rfl, by rfl⟩

theorem modulus_mismatch_error_spec_witness :
    addPoly (IntPoly.mk [1] Modulus.none) (IntPoly.mk [1] (Modulus.some 426)) =
      Option.some (Except.error
        (PolynomialError.ModulusMismatchError Modulus.none (Modulus.some 426))) :=
  (modulus_mismatch_error_spec.1 (IntPoly.mk [1] Modulus.none)
    (IntPoly.mk [1] (Modulus.some 426)) (by decide)).1

theorem take_flatten_sep (sep : List Char) (l : List (List Char)) (hne : l ≠ []) :
    ((l.map (fun x => x ++ sep)).flatten).take
      (((l.map (fun x => x ++ sep)).flatten).length - sep.length) = joinSep sep l := by
  induction l with
  | nil => exact absurd rfl hne
  | cons x rest ih =>
    cases rest with
    | nil =>
      simp only [List.map_cons, List.map_nil, List.flatten_cons, List.flatten_nil,
        List.append_nil, joinSep, List.length_append]
      rw [Nat.add_sub_cancel]
      exact List.take_left x sep
    | cons y rest2 =>
      simp only [List.map_cons, List.flatten_cons, joinSep] at ih ⊢
      have hFlen : sep.length ≤
          ((y ++ sep) ++ ((rest2.map (fun x => x ++ sep)).flatten)).length := by
        simp only [List.length_append]
        omega
      have hlen : ((x ++ sep) ++ ((y ++ sep) ++ ((rest2.map (fun x => x ++ sep)).flatten))).length
            - sep.length
          = (x ++ sep).length +
            (((y ++ sep) ++ ((rest2.map (fun x => x ++ sep)).flatten)).length - sep.length) := by
        simp only [List.length_append]
        omega
      rw [hlen, List.take_append
        (((y ++ sep) ++ ((rest2.map (fun x => x ++ sep)).flatten)).length - sep.length)]
      rw [ih (by simp)]

/-- Claim C9 (amended): `to_string` returns `"0"` for the zero polynomial;
otherwise it emits one chunk per stored coefficient, joined by `" + "`, but
the chunk for a zero coefficient is the empty string rather than the term
`0X^i` — zero coefficients contribute no term text, only their separator. -/
theorem to_string_spec (p : IntPoly) :
    (p.coefficients = [] → p.toString = "0") ∧
    (p.coefficients ≠ [] → p.toString = String.mk (joinSep (" + ").data
      (p.coefficients.enum.map (fun ia =>
        if ia.2 ≠ 0 then monomialChars ia.2 ia.1 else [])))) := by
  constructor
  · intro h
    rw [IntPoly.toString, if_pos (by simp [h])]
  · intro h
    rw [IntPoly.toString, if_neg (by simp [h])]
    have hmap : p.coefficients.enum.map (fun ia =>
        (if ia.2 ≠ 0 then monomialChars ia.2 ia.1 else []) ++ (" + ").data)
      = (p.coefficients.enum.map (fun ia =>
          if ia.2 ≠ 0 then monomialChars ia.2 ia.1 else [])).map
          (fun x => x ++ (" + ").data) := by
      rw [List.map_map]
      rfl
    simp only [hmap]
    have h3 : (3 : Nat) = ([' ', '+', ' '] : List Char).length := rfl
    rw [h3]
    exact congrArg String.mk (take_flatten_sep [' ', '+', ' '] _ (by simp [h]))

theorem to_string_spec_witness :
    IntPoly.toString (IntPoly.mk [1, 0, 2] Modulus.none) =
    String.mk (joinSep (" + ").data
      ((IntPoly.mk [1, 0, 2] Modulus.none).coefficients.enum.map (fun ia =>
        if ia.2 ≠ 0 then monomialChars ia.2 ia.1 else []))) :=
  (to_string_spec (IntPoly.mk [1, 0, 2] Modulus.none)).2 (by decide)

/-- Claim C9 counterexample: on the constructible polynomial `1 + 0X + 2X^2`
the rendering produced by `to_string` is not the spec's rendering that
includes the zero-coefficient term `0X^1`: the code yields
`"1X^0 +  + 2X^2"`, not `"1X^0 + 0X^1 + 2X^2"`. -/
theorem to_string_counterexample :
    IntPoly.toString (IntPoly.mk [1, 0, 2] Modulus.none) ≠
    specRenderedString (IntPoly.mk [1, 0, 2] Modulus.none) := by decide

end Miura
